import Mathlib

/-!
# Verification of the Neodash-Site decoding core

Shallow embedding of the two text-payload decoders of the repository:

* the hall-of-fame decoder `parseHofRaw` together with its helpers
  `b64decodeSafe` and `ordinal` (src/pages/index.tsx), and
* the level-list decoder `parseLevelList` with its helpers
  `safeBase64Decode` and `num` (src/lib, "prase" module).

JavaScript strings are modelled as `List Char` (`Str`); the platform
primitives the code calls (`String.prototype.trim`, `String.prototype.split`,
`parseInt`, `Number`, JavaScript numbers as exact rationals) are given
executable models below.  Two distinct base64 primitives appear in the
source and both are modelled: the browser's `atob` (WHATWG
forgiving-base64, where a decoding failure is a thrown exception that the
try/catch of `b64decodeSafe` turns into returning the input unchanged),
used by the client-side branch of `b64decodeSafe` in src/pages/index.tsx,
and Node's `Buffer.from(s, "base64")` (total: it never throws, skips
characters outside its alphabet, accepts the URL-safe alphabet and stops
at `=` padding), which is all that `safeBase64Decode` in the level-list
module ever calls — its catch clause is dead code.  All definitions are
computable, so concrete payloads can be evaluated by `decide`.
-/

abbrev Str := List Char

/-- The set of characters JavaScript `String.prototype.trim` (and the
leading-whitespace skip of `parseInt`/`Number`) removes. -/
def jsWs (c : Char) : Bool :=
  c.toNat = 0x09 || c.toNat = 0x0A || c.toNat = 0x0B || c.toNat = 0x0C ||
  c.toNat = 0x0D || c.toNat = 0x20 || c.toNat = 0xA0 || c.toNat = 0x1680 ||
  (0x2000 ≤ c.toNat && c.toNat ≤ 0x200A) || c.toNat = 0x2028 ||
  c.toNat = 0x2029 || c.toNat = 0x202F || c.toNat = 0x205F ||
  c.toNat = 0x3000 || c.toNat = 0xFEFF

/-- Model of JavaScript `s.trim()` on character lists. -/
def jsTrimL (l : Str) : Str :=
  ((l.dropWhile jsWs).reverse.dropWhile jsWs).reverse

/-- Model of JavaScript `s.trim()` on strings. -/
def jsTrim (s : String) : String := String.mk (jsTrimL s.data)

/-- `strStarts pre l` models JavaScript `l.startsWith(pre)`. -/
def strStarts : Str → Str → Bool
  | [], _ => true
  | _ :: _, [] => false
  | p :: ps, c :: cs => p == c && strStarts ps cs

/-- Fuel-driven worker for `splitList`; the fuel only serves to make the
recursion structural and is irrelevant once it is at least the input
length. -/
def splitListF (sep : Str) : ℕ → Str → List Str
  | _, [] => [[]]
  | 0, l => [l]
  | fuel + 1, c :: rest =>
    if sep ≠ [] ∧ strStarts sep (c :: rest) then
      [] :: splitListF sep fuel ((c :: rest).drop sep.length)
    else
      (c :: (splitListF sep fuel rest).headD []) :: (splitListF sep fuel rest).tail

/-- Model of JavaScript `s.split(sep)` for a non-empty separator `sep`:
scan left to right, cutting at each leftmost occurrence of the separator.
Like the JavaScript original it always returns at least one piece and
returns `[l]` when the separator does not occur. -/
def splitList (sep : Str) (l : Str) : List Str := splitListF sep l.length l

/-- The digits `0`-`9`. -/
def jsDigit (c : Char) : Bool := 48 ≤ c.toNat && c.toNat ≤ 57

/-- Value of a decimal digit string (most significant first). -/
def natOfDigits (l : Str) : ℕ := l.foldl (fun acc c => acc * 10 + (c.toNat - 48)) 0

/-- The longest decimal-digit prefix of `l`, as a number; `none` when there
is no leading digit.  This is the digit-consuming core of `parseInt`. -/
def digitsVal (l : Str) : Option ℕ :=
  let ds := l.takeWhile jsDigit
  if ds = [] then none else some (natOfDigits ds)

/-- Model of JavaScript `parseInt(s, 10)`: skip leading whitespace, read an
optional sign and then the longest digit prefix; `none` models `NaN`. -/
def jsParseIntL (l : Str) : Option Int :=
  match l.dropWhile jsWs with
  | '-' :: r => (digitsVal r).map (fun n => -(n : Int))
  | '+' :: r => (digitsVal r).map (fun n => (n : Int))
  | r => (digitsVal r).map (fun n => (n : Int))

-- ## Base64

/-- Value of a base64 alphabet character, `none` for everything else. -/
def b64Val (c : Char) : Option ℕ :=
  if 65 ≤ c.toNat ∧ c.toNat ≤ 90 then some (c.toNat - 65)
  else if 97 ≤ c.toNat ∧ c.toNat ≤ 122 then some (c.toNat - 97 + 26)
  else if 48 ≤ c.toNat ∧ c.toNat ≤ 57 then some (c.toNat - 48 + 52)
  else if c.toNat = 43 then some 62
  else if c.toNat = 47 then some 63
  else none

/-- ASCII whitespace, which forgiving-base64 strips before decoding. -/
def asciiWs (c : Char) : Bool :=
  c.toNat = 0x09 || c.toNat = 0x0A || c.toNat = 0x0C || c.toNat = 0x0D ||
  c.toNat = 0x20

/-- Remove up to two trailing `=` padding characters when the length is a
multiple of four (step 2 of forgiving-base64). -/
def b64StripPad (l : Str) : Str :=
  if l.length % 4 = 0 then
    match l.reverse with
    | '=' :: '=' :: r => r.reverse
    | '=' :: r => r.reverse
    | _ => l
  else l

/-- Reassemble 6-bit values into bytes: each full group of four values
yields three bytes, a trailing group of two or three yields one or two. -/
def b64Group : List ℕ → List ℕ
  | a :: b :: c :: d :: rest =>
    (a * 4 + b / 16) :: ((b % 16) * 16 + c / 4) :: ((c % 4) * 64 + d) :: b64Group rest
  | [a, b] => [a * 4 + b / 16]
  | [a, b, c] => [a * 4 + b / 16, (b % 16) * 16 + c / 4]
  | _ => []

/-- Model of standard base64 decoding to bytes as performed by `atob`
(WHATWG forgiving-base64).  `none` models the thrown decode error: a
length congruent to 1 mod 4 after whitespace/padding removal, or any
character outside the base64 alphabet. -/
def b64decodeL (l : Str) : Option (List ℕ) :=
  let t := b64StripPad (l.filter (fun c => !asciiWs c))
  if t.length % 4 = 1 then none
  else match t.mapM b64Val with
    | some vs => some (b64Group vs)
    | none => none

/-- Decoded bytes as text, one character per byte (`atob` semantics). -/
def latin1 (bs : List ℕ) : Str := bs.map Char.ofNat

/-- The characters that may appear in a base64 payload: the alphabet plus
the `=` padding character. -/
def isB64Sym (c : Char) : Bool := (b64Val c).isSome || c == '='

/-- The try/catch body of `b64decodeSafe` (src/pages/index.tsx) in its
browser branch, the one in which the page's decoding runs: `atob` on
success, the original input when `atob` throws.  (The server-side branch
of that function calls `Buffer.from` instead, modelled separately below
as `b64decodeNodeL`.) -/
def b64decodeSafeL (l : Str) : Str :=
  match b64decodeL l with
  | some bs => latin1 bs
  | none => l

/-- `b64decodeSafe` from src/pages/index.tsx, client-side (`atob`) branch:
base64-decode `s`, returning `s` itself when the decoder rejects the
input. -/
def b64decodeSafe (s : String) : String := String.mk (b64decodeSafeL s.data)

/-- Value of a base64 character as accepted by Node's
`Buffer.from(s, "base64")`: the standard alphabet plus the URL-safe `-`
and `_`. -/
def nodeB64Val (c : Char) : Option ℕ :=
  if 65 ≤ c.toNat ∧ c.toNat ≤ 90 then some (c.toNat - 65)
  else if 97 ≤ c.toNat ∧ c.toNat ≤ 122 then some (c.toNat - 97 + 26)
  else if 48 ≤ c.toNat ∧ c.toNat ≤ 57 then some (c.toNat - 48 + 52)
  else if c.toNat = 43 ∨ c.toNat = 45 then some 62
  else if c.toNat = 47 ∨ c.toNat = 95 then some 63
  else none

/-- The 6-bit values Node's decoder consumes: scan until the first `=`
(padding ends the data), keep alphabet characters, skip everything
else. -/
def nodeB64Vals : Str → List ℕ
  | [] => []
  | c :: rest =>
    if c = '=' then []
    else match nodeB64Val c with
      | some v => v :: nodeB64Vals rest
      | none => nodeB64Vals rest

/-- Model of Node's `Buffer.from(s, "base64")`: a total function — it
never throws for any input string; characters outside the (URL-safe
extended) alphabet are skipped, `=` ends the data, and a trailing single
6-bit value contributes no byte. -/
def b64decodeNodeL (l : Str) : List ℕ := b64Group (nodeB64Vals l)

/-- `safeBase64Decode` from the level-list module (src/unnamed/part_000):
it only ever calls `Buffer.from(s, "base64")`, which never throws, so its
catch clause is dead code — the function is total and decodes invalid
input leniently instead of returning it unchanged.  Bytes are rendered
one character per byte, which coincides with `toString("utf8")` on the
ASCII outputs the claims concern (UTF-8 multi-byte rendering is not
modelled). -/
def safeBase64DecodeL (l : Str) : Str := latin1 (b64decodeNodeL l)

/-- String-level wrapper of `safeBase64DecodeL`. -/
def safeBase64Decode (s : String) : String := String.mk (safeBase64DecodeL s.data)

-- ## JavaScript Number model (for the optional-number parser `num`)

/-- A JavaScript number as produced by `Number(string)`: a finite value
(modelled as an exact rational), an infinity, or `NaN`. -/
inductive JsNum where
  | finite (q : ℚ)
  | infinite (pos : Bool)
  | nan
deriving DecidableEq

/-- Model of `Number.isFinite`. -/
def JsNum.isFinite : JsNum → Bool
  | finite _ => true
  | _ => false

/-- Nonempty all-decimal-digit string, as a number. -/
def decDigitsVal (l : Str) : Option ℕ :=
  if l ≠ [] ∧ l.all jsDigit then some (natOfDigits l) else none

/-- Digit string in a given radix via a digit-value function; `none` if
empty or any character is not a digit of the radix. -/
def radixDigitsVal (dv : Char → Option ℕ) (radix : ℕ) (l : Str) : Option ℕ :=
  if l = [] then none
  else l.foldl (fun acc c =>
    match acc, dv c with
    | some a, some d => some (a * radix + d)
    | _, _ => none) (some 0)

/-- Value of a hexadecimal digit. -/
def hexDigitVal (c : Char) : Option ℕ :=
  if 48 ≤ c.toNat ∧ c.toNat ≤ 57 then some (c.toNat - 48)
  else if 97 ≤ c.toNat ∧ c.toNat ≤ 102 then some (c.toNat - 87)
  else if 65 ≤ c.toNat ∧ c.toNat ≤ 70 then some (c.toNat - 55)
  else none

/-- Value of an octal digit. -/
def octDigitVal (c : Char) : Option ℕ :=
  if 48 ≤ c.toNat ∧ c.toNat ≤ 55 then some (c.toNat - 48) else none

/-- Value of a binary digit. -/
def binDigitVal (c : Char) : Option ℕ :=
  if 48 ≤ c.toNat ∧ c.toNat ≤ 49 then some (c.toNat - 48) else none

/-- The purely syntactic outcome of parsing a trimmed number string: the
shapes `StringToNumber` distinguishes before any value is computed. -/
inductive NumParse where
  | empty
  | inf (pos : Bool)
  | dec (pos : Bool) (ip fp : ℕ) (fl : ℕ) (ex : Int)
  | radix (n : ℕ)
  | bad
deriving DecidableEq

/-- Mantissa of a decimal literal: `digits`, `digits.digits`, `digits.`
or `.digits`, with at least one digit; the result is the integer part,
the fraction digits' value, and the number of fraction digits. -/
def parseMantissaParts (l : Str) : Option (ℕ × ℕ × ℕ) :=
  match splitList ['.'] l with
  | [ip] => (decDigitsVal ip).map (fun n => (n, 0, 0))
  | [ip, fp] =>
    if ip = [] ∧ fp = [] then none
    else if ip.all jsDigit ∧ fp.all jsDigit then
      some (natOfDigits ip, natOfDigits fp, fp.length)
    else none
  | _ => none

/-- Exponent part after `e`/`E`: optional sign, then nonempty digits. -/
def parseExpPart (l : Str) : Option Int :=
  match l with
  | '+' :: r => (decDigitsVal r).map (fun n => (n : Int))
  | '-' :: r => (decDigitsVal r).map (fun n => -(n : Int))
  | r => (decDigitsVal r).map (fun n => (n : Int))

/-- `Infinity` or a decimal literal with optional exponent. -/
def unsignedParse (l : Str) (pos : Bool) : NumParse :=
  if l = "Infinity".data then .inf pos
  else
    let m := l.takeWhile (fun c => !(c == 'e' || c == 'E'))
    match parseMantissaParts m, l.dropWhile (fun c => !(c == 'e' || c == 'E')) with
    | some (ip, fp, fl), [] => .dec pos ip fp fl 0
    | some (ip, fp, fl), _ :: er =>
      (match parseExpPart er with
       | some e => .dec pos ip fp fl e
       | none => .bad)
    | none, _ => .bad

/-- A `0x`/`0o`/`0b` integer literal body. -/
def radixParse (dv : Char → Option ℕ) (radix : ℕ) (l : Str) : NumParse :=
  match radixDigitsVal dv radix l with
  | some n => .radix n
  | none => .bad

/-- Syntactic analysis behind `Number(string)`: trim, classify as empty,
signed `Infinity`/decimal literal, radix literal, or garbage. -/
def numParseOf (l : Str) : NumParse :=
  let t := jsTrimL l
  if t = [] then .empty
  else match t with
  | '+' :: r => unsignedParse r true
  | '-' :: r => unsignedParse r false
  | '0' :: x :: r =>
    if x = 'x' ∨ x = 'X' then radixParse hexDigitVal 16 r
    else if x = 'o' ∨ x = 'O' then radixParse octDigitVal 8 r
    else if x = 'b' ∨ x = 'B' then radixParse binDigitVal 2 r
    else unsignedParse t true
  | _ => unsignedParse t true

/-- The numeric value of a parse outcome (`Number("")` is `0`). -/
def NumParse.value : NumParse → JsNum
  | .empty => .finite 0
  | .inf pos => .infinite pos
  | .dec pos ip fp fl ex =>
    .finite ((if pos then 1 else -1) * ((ip : ℚ) + (fp : ℚ) / (10 : ℚ) ^ fl) * (10 : ℚ) ^ ex)
  | .radix n => .finite (n : ℚ)
  | .bad => .nan

/-- Model of JavaScript `Number(string)`: values are exact rationals
(double rounding and overflow are not modelled). -/
def jsStrToNumber (l : Str) : JsNum := (numParseOf l).value

/-- The helper `num` of `parseLevelList`: `null` (here `none`) for a
missing, empty or whitespace-only field and for a parse that is not a
finite number, otherwise the parsed value. -/
def numL (s : Option Str) : Option ℚ :=
  match s with
  | none => none
  | some s =>
    if jsTrimL s = [] then none
    else match jsStrToNumber s with
      | .finite q => some q
      | _ => none

-- ## Hall-of-fame decoder (src/pages/index.tsx)

/-- A decoded hall-of-fame row. -/
structure HofRow where
  rank : String
  player : String
  score : Int
deriving DecidableEq

/-- `ordinal` from src/pages/index.tsx: render `n` with its English
ordinal suffix. -/
def ordinal (n : ℕ) : String :=
  let v := n % 100
  if 11 ≤ v ∧ v ≤ 13 then toString n ++ "th"
  else if n % 10 = 1 then toString n ++ "st"
  else if n % 10 = 2 then toString n ++ "nd"
  else if n % 10 = 3 then toString n ++ "rd"
  else toString n ++ "th"

/-- The irregular head of the hall-of-fame stream: token 0 is the base64
name, token 1 is `<score>/<discarded>` (the portion of token 1 before its
first slash is the score; the rest is discarded); the pair survives when
the score parses and the decoded name does not trim to empty. -/
def hofFirstPair (parts : List Str) : Option (Str × Int) :=
  (jsParseIntL ((splitList ['/'] (parts.getD 1 [])).headD [])).bind (fun s =>
    if jsTrimL (b64decodeSafeL (parts.headD [])) = [] then none
    else some (b64decodeSafeL (parts.headD []), s))

/-- A token from index 2 on: `<score>/<base64 name>`; skipped when it has
no slash, when the score does not parse, or when the decoded name trims
to empty. -/
def tokenPair (t : Str) : Option (Str × Int) :=
  if '/' ∈ t then
    (jsParseIntL ((splitList ['/'] t).headD [])).bind (fun s =>
      if jsTrimL (b64decodeSafeL ((splitList ['/'] t).getD 1 [])) = [] then none
      else some (b64decodeSafeL ((splitList ['/'] t).getD 1 []), s))
  else none

/-- The surviving (name, score) pairs of a hall-of-fame payload, in the
order they are derived (lines 54-75 of src/pages/index.tsx). -/
def hofPairs (raw : String) : List (Str × Int) :=
  if (splitList [','] (jsTrimL raw.data)).length < 2 then []
  else (hofFirstPair (splitList [','] (jsTrimL raw.data))).toList ++
    ((splitList [','] (jsTrimL raw.data)).drop 2).filterMap tokenPair

/-- Insert into a descending-by-score list, before the first element of
not-greater score (so before, never after, existing equal scores). -/
def insertDesc (x : Str × Int) : List (Str × Int) → List (Str × Int)
  | [] => [x]
  | y :: ys => if y.2 ≤ x.2 then x :: y :: ys else y :: insertDesc x ys

/-- Model of `out.sort((a, b) => b.score - a.score)`: the stable
descending-by-score sort (JavaScript `Array.prototype.sort` is stable). -/
def sortPairs (l : List (Str × Int)) : List (Str × Int) := l.foldr insertDesc []

/-- The tie-aware ranking loop of `parseHofRaw`: `place` counts every row,
`displayRank` is re-set to `place` exactly when the score differs from the
previous row's. -/
def rankAux : List (Str × Int) → Option Int → ℕ → ℕ → List HofRow
  | [], _, _, _ => []
  | (nm, sc) :: rest, lastScore, displayRank, place =>
    let dr := if lastScore = some sc then displayRank else place + 1
    ⟨ordinal dr, String.mk nm, sc⟩ :: rankAux rest (some sc) dr (place + 1)

/-- Rank assignment over a (sorted) pair list. -/
def assignRanks (l : List (Str × Int)) : List HofRow := rankAux l none 0 0

/-- The numeric displayed ranks of the ranking loop, before rendering. -/
def ranksAux : List Int → Option Int → ℕ → ℕ → List ℕ
  | [], _, _, _ => []
  | sc :: rest, lastScore, displayRank, place =>
    let dr := if lastScore = some sc then displayRank else place + 1
    dr :: ranksAux rest (some sc) dr (place + 1)

/-- The numeric displayed ranks assigned to a list of (sorted) scores. -/
def ranksNat (sc : List Int) : List ℕ := ranksAux sc none 0 0

/-- The English ordinal suffix rule exactly as the specification states
it: rank mod 100 in 11-13 gives `th`; otherwise rank mod 10 of 1, 2, 3
gives `st`, `nd`, `rd`, else `th`. -/
def ordinalSuffix (n : ℕ) : String :=
  if n % 100 = 11 ∨ n % 100 = 12 ∨ n % 100 = 13 then "th"
  else if n % 10 = 1 then "st"
  else if n % 10 = 2 then "nd"
  else if n % 10 = 3 then "rd"
  else "th"

/-- `parseHofRaw` from src/pages/index.tsx: derive the pairs, stable-sort
them descending by score, then assign tie-aware ordinal ranks. -/
def parseHofRaw (raw : String) : List HofRow := assignRanks (sortPairs (hofPairs raw))

-- ## Level-list decoder (the "prase" module, src/unnamed/part_000)

/-- A decoded level record. -/
structure LevelEntry where
  levelId : String
  levelAuthor : String
  levelRating : Option ℚ
  levelDifficulty : String
  levelDownloads : Option ℚ
  levelTopTimesRaw : Option String
deriving DecidableEq

/-- The result of `parseLevelList`. -/
structure LevelListResult where
  levels : List LevelEntry
  hasMoreLevels : Bool
deriving DecidableEq

/-- One `key=value` field: split on `=`, keep the first piece as key
(skipping the field when it is empty) and rejoin the rest as the value so
a value may itself contain `=`. -/
def segKV (seg : Str) : Option (Str × Str) :=
  let ps := splitList ['='] seg
  let k := ps.headD []
  if k = [] then none else some (k, List.intercalate ['='] ps.tail)

/-- Last-binding lookup, the behaviour of assigning `fields[k] = v` into a
JavaScript object while scanning the segments in order. -/
def lookupLast (fields : List (Str × Str)) (k : Str) : Option Str :=
  (fields.reverse.find? (fun kv => kv.1 == k)).map (·.2)

/-- The record marker `"\levelId="` the body is split on. -/
def levelRecordMarker : Str := "\\levelId=".data

/-- Reattach `levelId=` for uniform parsing — except for a first chunk
that already starts with it. -/
def blockOf (i : ℕ) (chunk : Str) : Str :=
  if i = 0 ∧ strStarts "levelId=".data chunk then chunk
  else "levelId=".data ++ chunk

/-- The pagination-marker field `hasMoreLevels=1`. -/
def isFlagKV (kv : Str × Str) : Bool :=
  kv.1 == "hasMoreLevels".data && kv.2 == "1".data

/-- All key/value fields of a chunk's block. -/
def chunkKVs (i : ℕ) (chunk : Str) : List (Str × Str) :=
  (splitList ['&'] (blockOf i chunk)).filterMap segKV

/-- Build a `LevelEntry` from a record's field map: trim and decode the
base64 id/author fields, parse the optional numbers, keep difficulty
verbatim and the top-times field raw. -/
def mkEntry (fields : List (Str × Str)) : LevelEntry :=
  let levelIdEncoded := jsTrimL ((lookupLast fields "levelId".data).getD [])
  let levelAuthorEncoded := jsTrimL ((lookupLast fields "levelAuthor".data).getD [])
  { levelId := String.mk (safeBase64DecodeL levelIdEncoded)
    levelAuthor := String.mk (safeBase64DecodeL levelAuthorEncoded)
    levelRating := numL (lookupLast fields "levelRating".data)
    levelDifficulty := String.mk ((lookupLast fields "levelDifficulty".data).getD [])
    levelDownloads := numL (lookupLast fields "levelDownloads".data)
    levelTopTimesRaw := (lookupLast fields "levelTopTimes".data).map String.mk }

/-- The entries a chunk contributes: none for an empty chunk, and none
when the decoded `levelId` is the empty string (the `if (entry.levelId)`
filter). -/
def chunkEntries (i : ℕ) (chunk : Str) : List LevelEntry :=
  if chunk = [] then []
  else if (mkEntry ((chunkKVs i chunk).filter (fun kv => !isFlagKV kv))).levelId ≠ "" then
    [mkEntry ((chunkKVs i chunk).filter (fun kv => !isFlagKV kv))]
  else []

/-- Whether a chunk carries the pagination marker. -/
def chunkFlag (i : ℕ) (chunk : Str) : Bool :=
  if chunk = [] then false else (chunkKVs i chunk).any isFlagKV

/-- One iteration of `parseLevelList`'s chunk loop: append the chunk's
entries, accumulate the sticky pagination flag. -/
def levelStep (st : List LevelEntry × Bool) (ic : ℕ × Str) : List LevelEntry × Bool :=
  (st.1 ++ chunkEntries ic.1 ic.2, st.2 || chunkFlag ic.1 ic.2)

/-- `parseLevelList` from the level-list module: split the body on the
record marker, parse every non-empty chunk (the first chunk keeps its own
`levelId=` prefix when present, every other chunk gets the marker's key
reattached), collect the surviving entries in order and accumulate the
document-scoped `hasMoreLevels` flag. -/
def parseLevelList (raw : String) : LevelListResult :=
  let st := ((splitList levelRecordMarker raw.data).enum).foldl levelStep
    (([] : List LevelEntry), false)
  ⟨st.1, st.2⟩

-- ## Supporting lemmas: splitting

theorem splitListF_congr (sep : Str) :
    ∀ (fuel fuel' : ℕ) (l : Str), l.length ≤ fuel → l.length ≤ fuel' →
      splitListF sep fuel l = splitListF sep fuel' l := by
  intro fuel
  induction fuel with
  | zero =>
    intro fuel' l h _
    have hl : l = [] := by
      cases l with
      | nil => rfl
      | cons c r => simp at h
    subst hl
    cases fuel' <;> rfl
  | succ f ih =>
    intro fuel' l h h'
    cases l with
    | nil => cases fuel' <;> rfl
    | cons c rest =>
      cases fuel' with
      | zero => simp at h'
      | succ f' =>
        simp only [List.length_cons] at h h'
        by_cases hc : sep ≠ [] ∧ strStarts sep (c :: rest)
        · have hsep : 0 < sep.length := List.length_pos.mpr hc.1
          have hd : ((c :: rest).drop sep.length).length ≤ f := by
            simp only [List.length_drop, List.length_cons]; omega
          have hd' : ((c :: rest).drop sep.length).length ≤ f' := by
            simp only [List.length_drop, List.length_cons]; omega
          simp only [splitListF, if_pos hc]
          rw [ih f' _ hd hd']
        · simp only [splitListF, if_neg hc]
          rw [ih f' rest (by omega) (by omega)]

theorem splitList_cons (sep : Str) (c : Char) (rest : Str) :
    splitList sep (c :: rest) =
      if sep ≠ [] ∧ strStarts sep (c :: rest) then
        [] :: splitList sep ((c :: rest).drop sep.length)
      else
        (c :: (splitList sep rest).headD []) :: (splitList sep rest).tail := by
  show splitListF sep (c :: rest).length (c :: rest) = _
  simp only [List.length_cons, splitListF]
  by_cases hc : sep ≠ [] ∧ strStarts sep (c :: rest)
  · have hsep : 0 < sep.length := List.length_pos.mpr hc.1
    rw [if_pos hc, if_pos hc]
    congr 1
    exact splitListF_congr sep rest.length _ _
      (by simp only [List.length_drop, List.length_cons]; omega) (le_refl _)
  · rw [if_neg hc, if_neg hc]
    rfl

theorem strStarts_append_self (p t : Str) : strStarts p (p ++ t) = true := by
  induction p with
  | nil => rfl
  | cons c ps ih => simp [strStarts, ih]

theorem splitList_append_head_not_mem (d : Char) (sep' : Str) :
    ∀ (a b : Str), d ∉ a →
      splitList (d :: sep') (a ++ (d :: sep') ++ b) = a :: splitList (d :: sep') b := by
  intro a
  induction a with
  | nil =>
    intro b _
    have hshape : ([] : Str) ++ (d :: sep') ++ b = d :: (sep' ++ b) := by simp
    rw [hshape, splitList_cons]
    have hss : strStarts (d :: sep') (d :: (sep' ++ b)) = true :=
      strStarts_append_self (d :: sep') b
    rw [if_pos ⟨List.cons_ne_nil d sep', hss⟩]
    have hdrop : (d :: (sep' ++ b)).drop (d :: sep').length = b := by
      simpa using List.drop_left (d :: sep') b
    rw [hdrop]
  | cons x a' ih =>
    intro b hmem
    have hx : d ≠ x := fun h => hmem (h ▸ List.mem_cons_self x a')
    have hda' : d ∉ a' := fun h => hmem (List.mem_cons_of_mem x h)
    have hshape : (x :: a') ++ (d :: sep') ++ b = x :: (a' ++ (d :: sep') ++ b) := by simp
    rw [hshape, splitList_cons]
    have hss : ¬(((d :: sep') : Str) ≠ [] ∧
        strStarts (d :: sep') (x :: (a' ++ (d :: sep') ++ b))) := by
      intro hcontra
      have : (d == x && strStarts sep' (a' ++ (d :: sep') ++ b)) = true := hcontra.2
      simp only [Bool.and_eq_true, beq_iff_eq] at this
      exact hx this.1
    rw [if_neg hss, ih b hda']
    simp

theorem splitList_eq_self_of_head_not_mem (d : Char) (sep' : Str) :
    ∀ (l : Str), d ∉ l → splitList (d :: sep') l = [l] := by
  intro l
  induction l with
  | nil => intro _; rfl
  | cons c rest ih =>
    intro hmem
    have hc : d ≠ c := fun h => hmem (h ▸ List.mem_cons_self c rest)
    have hrest : d ∉ rest := fun h => hmem (List.mem_cons_of_mem c h)
    rw [splitList_cons]
    have hss : ¬(((d :: sep') : Str) ≠ [] ∧ strStarts (d :: sep') (c :: rest)) := by
      intro hcontra
      have : (d == c && strStarts sep' rest) = true := hcontra.2
      simp only [Bool.and_eq_true, beq_iff_eq] at this
      exact hc this.1
    rw [if_neg hss, ih hrest]
    rfl

-- ## Supporting lemmas: trimming

theorem dropWhile_eq_self_of_head (p : Char → Bool) (l : Str)
    (h : ∀ c, l.head? = some c → p c = false) : l.dropWhile p = l := by
  cases l with
  | nil => rfl
  | cons c rest =>
    rw [List.dropWhile_cons, h c rfl]
    simp

theorem jsTrimL_eq_self (l : Str)
    (h1 : ∀ c, l.head? = some c → jsWs c = false)
    (h2 : ∀ c, l.getLast? = some c → jsWs c = false) : jsTrimL l = l := by
  unfold jsTrimL
  rw [dropWhile_eq_self_of_head _ _ h1]
  rw [dropWhile_eq_self_of_head _ _
    (fun c hc => h2 c (by rwa [List.head?_reverse] at hc))]
  exact List.reverse_reverse l

-- ## Supporting lemmas: the level-list fold

theorem foldl_levelStep (l : List (ℕ × Str)) :
    ∀ (es : List LevelEntry) (b : Bool),
      l.foldl levelStep (es, b) =
        (es ++ l.flatMap (fun ic => chunkEntries ic.1 ic.2),
         b || l.any (fun ic => chunkFlag ic.1 ic.2)) := by
  induction l with
  | nil => intro es b; simp
  | cons ic l ih =>
    intro es b
    rw [List.foldl_cons]
    show l.foldl levelStep (es ++ chunkEntries ic.1 ic.2, b || chunkFlag ic.1 ic.2) = _
    rw [ih]
    simp [List.append_assoc, Bool.or_assoc]

theorem parseLevelList_levels (raw : String) :
    (parseLevelList raw).levels =
      ((splitList levelRecordMarker raw.data).enum).flatMap
        (fun ic => chunkEntries ic.1 ic.2) := by
  simp [parseLevelList, foldl_levelStep]

theorem parseLevelList_flag (raw : String) :
    (parseLevelList raw).hasMoreLevels =
      ((splitList levelRecordMarker raw.data).enum).any
        (fun ic => chunkFlag ic.1 ic.2) := by
  simp [parseLevelList, foldl_levelStep]

-- ## Supporting lemmas: the stable sort

theorem mem_insertDesc (x y : Str × Int) (l : List (Str × Int)) :
    y ∈ insertDesc x l ↔ y = x ∨ y ∈ l := by
  induction l with
  | nil => simp [insertDesc]
  | cons z zs ih =>
    rw [insertDesc]
    by_cases h : z.2 ≤ x.2
    · rw [if_pos h]
      simp only [List.mem_cons]
    · rw [if_neg h]
      simp only [List.mem_cons, ih]
      tauto

theorem pairwise_insertDesc (x : Str × Int) (l : List (Str × Int))
    (h : List.Pairwise (fun a b => b.2 ≤ a.2) l) :
    List.Pairwise (fun a b => b.2 ≤ a.2) (insertDesc x l) := by
  induction l with
  | nil => simp [insertDesc]
  | cons z zs ih =>
    rw [insertDesc]
    by_cases hz : z.2 ≤ x.2
    · rw [if_pos hz]
      refine List.Pairwise.cons ?_ h
      intro y hy
      rcases List.mem_cons.mp hy with rfl | hy'
      · exact hz
      · exact le_trans (List.rel_of_pairwise_cons h hy') hz
    · rw [if_neg hz]
      have hpc := List.pairwise_cons.mp h
      refine List.Pairwise.cons ?_ (ih hpc.2)
      intro y hy
      rcases (mem_insertDesc x y zs).mp hy with rfl | hy'
      · omega
      · exact hpc.1 y hy'

theorem sortPairs_pairwise (l : List (Str × Int)) :
    List.Pairwise (fun a b => b.2 ≤ a.2) (sortPairs l) := by
  induction l with
  | nil => exact List.Pairwise.nil
  | cons x xs ih => exact pairwise_insertDesc x (sortPairs xs) ih

theorem filter_insertDesc (x : Str × Int) (s : Int) (l : List (Str × Int)) :
    (insertDesc x l).filter (fun p => p.2 == s) =
      if x.2 = s then x :: l.filter (fun p => p.2 == s)
      else l.filter (fun p => p.2 == s) := by
  induction l with
  | nil =>
    by_cases hx : x.2 = s
    · simp [insertDesc, List.filter_cons, hx]
    · simp [insertDesc, List.filter_cons, hx]
  | cons z zs ih =>
    rw [insertDesc]
    by_cases hz : z.2 ≤ x.2
    · rw [if_pos hz]
      by_cases hx : x.2 = s
      · simp [List.filter_cons, hx]
      · simp [List.filter_cons, hx]
    · rw [if_neg hz]
      rw [List.filter_cons, List.filter_cons, ih]
      by_cases hzs : z.2 = s
      · by_cases hx : x.2 = s
        · omega
        · simp [hzs, hx]
      · by_cases hx : x.2 = s
        · simp [hzs, hx]
        · simp [hzs, hx]

theorem sortPairs_filter (l : List (Str × Int)) (s : Int) :
    (sortPairs l).filter (fun p => p.2 == s) = l.filter (fun p => p.2 == s) := by
  induction l with
  | nil => rfl
  | cons x xs ih =>
    show (insertDesc x (sortPairs xs)).filter _ = _
    rw [filter_insertDesc]
    by_cases hx : x.2 = s
    · rw [if_pos hx, ih, List.filter_cons, if_pos (by simp [hx])]
    · rw [if_neg hx, ih, List.filter_cons, if_neg (by simp [hx])]

-- ## Supporting lemmas: ranking

theorem rankAux_map_rank :
    ∀ (l : List (Str × Int)) (last : Option Int) (dr p : ℕ),
      (rankAux l last dr p).map HofRow.rank =
        (ranksAux (l.map Prod.snd) last dr p).map ordinal := by
  intro l
  induction l with
  | nil => intro last dr p; rfl
  | cons x rest ih =>
    intro last dr p
    obtain ⟨nm, sc⟩ := x
    simp only [rankAux, ranksAux, List.map_cons]
    rw [ih]

theorem ranksAux_length :
    ∀ (sc : List Int) (last : Option Int) (dr p : ℕ),
      (ranksAux sc last dr p).length = sc.length := by
  intro sc
  induction sc with
  | nil => intro last dr p; rfl
  | cons s rest ih =>
    intro last dr p
    simp only [ranksAux, List.length_cons, ih]

theorem ranksAux_consec :
    ∀ (sc : List Int) (last : Option Int) (dr p i : ℕ), i + 1 < sc.length →
      ((sc.getD (i + 1) 0 = sc.getD i 0 →
        (ranksAux sc last dr p).getD (i + 1) 0 = (ranksAux sc last dr p).getD i 0) ∧
       (sc.getD (i + 1) 0 ≠ sc.getD i 0 →
        (ranksAux sc last dr p).getD (i + 1) 0 = p + i + 2)) := by
  intro sc
  induction sc with
  | nil => intro last dr p i h; simp at h
  | cons s rest ih =>
    intro last dr p i h
    cases rest with
    | nil => simp at h
    | cons s' rest' =>
      cases i with
      | zero =>
        constructor
        · intro heq
          simp only [List.getD_cons_succ, List.getD_cons_zero] at heq
          subst heq
          simp [ranksAux]
        · intro hne
          simp only [List.getD_cons_succ, List.getD_cons_zero] at hne
          simp only [ranksAux, List.getD_cons_succ, List.getD_cons_zero]
          rw [if_neg (fun hcontra => hne (by simpa using hcontra.symm))]
      | succ i' =>
        have h' : i' + 1 < (s' :: rest').length := by
          simpa using h
        have hih := ih (some s) (if last = some s then dr else p + 1) (p + 1) i' h'
        have hunfold : ranksAux (s :: s' :: rest') last dr p =
            (if last = some s then dr else p + 1) ::
              ranksAux (s' :: rest') (some s) (if last = some s then dr else p + 1)
                (p + 1) := rfl
        rw [hunfold]
        simp only [List.getD_cons_succ] at hih ⊢
        constructor
        · intro heq
          exact hih.1 heq
        · intro hne
          rw [hih.2 hne]
          omega

theorem ranksNat_head (sc : List Int) (h : sc ≠ []) : (ranksNat sc).getD 0 0 = 1 := by
  cases sc with
  | nil => exact absurd rfl h
  | cons s rest => simp [ranksNat, ranksAux]

theorem mk_data_eq (s : String) : String.mk s.data = s := by
  cases s
  rfl

-- ## Supporting lemmas: base64 character facts

theorem isB64Sym_ranges (c : Char) (h : isB64Sym c = true) :
    (65 ≤ c.toNat ∧ c.toNat ≤ 90) ∨ (97 ≤ c.toNat ∧ c.toNat ≤ 122) ∨
    (48 ≤ c.toNat ∧ c.toNat ≤ 57) ∨ c.toNat = 43 ∨ c.toNat = 47 ∨ c.toNat = 61 := by
  simp only [isB64Sym, Bool.or_eq_true, beq_iff_eq] at h
  rcases h with h | h
  · unfold b64Val at h
    split_ifs at h with h1 h2 h3 h4 h5
    · exact Or.inl h1
    · exact Or.inr (Or.inl h2)
    · exact Or.inr (Or.inr (Or.inl h3))
    · exact Or.inr (Or.inr (Or.inr (Or.inl h4)))
    · exact Or.inr (Or.inr (Or.inr (Or.inr (Or.inl h5))))
    · simp at h
  · subst h
    exact Or.inr (Or.inr (Or.inr (Or.inr (Or.inr (by decide)))))

theorem isB64Sym_not_ws (c : Char) (h : isB64Sym c = true) : jsWs c = false := by
  have hr := isB64Sym_ranges c h
  rcases hr with h1 | h1 | h1 | h1 | h1 | h1 <;>
    · simp only [jsWs, Bool.or_eq_false_iff, Bool.and_eq_false_iff,
        decide_eq_false_iff_not]
      omega

theorem mem_of_getLast?_eq (l : Str) (c : Char) (h : l.getLast? = some c) : c ∈ l := by
  have hm : c ∈ l.reverse := List.mem_of_mem_head? (by simp [List.head?_reverse, h])
  simpa using hm

-- ## Claim theorems

/-- Characters outside Node's base64 alphabet (other than the terminating
`=`) are simply skipped by the Buffer decoder, wherever they occur. -/
theorem nodeB64Vals_skip (c : Char) (hc : nodeB64Val c = none) (hne : c ≠ '=') :
    ∀ (l₁ l₂ : Str), nodeB64Vals (l₁ ++ c :: l₂) = nodeB64Vals (l₁ ++ l₂) := by
  intro l₁
  induction l₁ with
  | nil =>
    intro l₂
    show nodeB64Vals (c :: l₂) = nodeB64Vals l₂
    conv_lhs => rw [nodeB64Vals]
    rw [if_neg hne, hc]
  | cons d l₁' ih =>
    intro l₂
    show nodeB64Vals (d :: (l₁' ++ c :: l₂)) = nodeB64Vals (d :: (l₁' ++ l₂))
    unfold nodeB64Vals
    by_cases hd : d = '='
    · rw [if_pos hd, if_pos hd]
    · rw [if_neg hd, if_neg hd]
      cases hv : nodeB64Val d with
      | none => exact ih l₂
      | some v =>
        show v :: nodeB64Vals (l₁' ++ c :: l₂) = v :: nodeB64Vals (l₁' ++ l₂)
        rw [ih l₂]

/-- C3 fails on the code: `safeBase64Decode` (the level-list module) only
ever calls `Buffer.from(s, "base64")`, which never throws, so its catch
clause is dead code and an invalid-base64 input is never returned
unchanged — it is decoded leniently instead.  `"!!!"` and `"A"` are not
valid base64 (the standard decoder rejects both), yet `safeBase64Decode`
maps each to `""`, not to itself. -/
theorem c3_counterexample :
    b64decodeL "!!!".data = none ∧ b64decodeL "A".data = none ∧
    safeBase64Decode "!!!" = "" ∧ safeBase64Decode "A" = "" :=
  ⟨by decide, by decide, by decide, by decide⟩

/-- C3 (amended): neither safe decoder ever fails, but only the browser
(`atob`) branch of `b64decodeSafe` returns a string the decoder rejects
unchanged; `safeBase64Decode`'s Node decoder has no failure path at all —
it skips every character outside its alphabet (and stops at `=`), so
invalid base64 is decoded leniently rather than returned unchanged
(e.g. both `"!!!"` and `"A"` decode to `""`). -/
theorem c3_decode_amended :
    (∀ s : String, b64decodeL s.data = none → b64decodeSafe s = s) ∧
    (∀ (l₁ l₂ : Str) (c : Char), nodeB64Val c = none → c ≠ '=' →
      b64decodeNodeL (l₁ ++ c :: l₂) = b64decodeNodeL (l₁ ++ l₂)) ∧
    safeBase64Decode "!!!" = "" ∧ safeBase64Decode "A" = "" := by
  refine ⟨?_, ?_, by decide, by decide⟩
  · intro s h
    unfold b64decodeSafe b64decodeSafeL
    rw [h]
  · intro l₁ l₂ c hc hne
    unfold b64decodeNodeL
    rw [nodeB64Vals_skip c hc hne l₁ l₂]

theorem c3_decode_amended_witness :
    b64decodeSafe "!!!" = "!!!" ∧
    b64decodeNodeL ("QQ".data ++ '!' :: "QQ".data) =
      b64decodeNodeL ("QQ".data ++ "QQ".data) :=
  ⟨c3_decode_amended.1 "!!!" (by decide),
   c3_decode_amended.2.1 "QQ".data "QQ".data '!' (by decide) (by decide)⟩

/-- C6: the optional-number parser `num` returns `none` exactly for a
missing field, an empty or whitespace-only field, or a field whose
`Number` parse is not finite; any value it does return is the parsed
numeric value (never a coerced zero), e.g. `12.5` for `"12.5"`. -/
theorem c6_num_optional :
    (∀ s : Str, numL (some s) = none ↔
      (jsTrimL s = [] ∨ (jsStrToNumber s).isFinite = false)) ∧
    (∀ (s : Str) (q : ℚ), numL (some s) = some q → jsStrToNumber s = .finite q) ∧
    numL none = none ∧
    numL (some "".data) = none ∧
    numL (some "   ".data) = none ∧
    numL (some "abc".data) = none ∧
    numL (some "12.5".data) = some (25 / 2) := by
  refine ⟨?_, ?_, rfl, by decide, by decide, by decide, ?_⟩
  · intro s
    simp only [numL]
    by_cases ht : jsTrimL s = []
    · simp [ht]
    · rw [if_neg ht]
      cases hn : jsStrToNumber s with
      | finite q => simp [JsNum.isFinite, ht]
      | infinite pos => simp [JsNum.isFinite, ht]
      | nan => simp [JsNum.isFinite, ht]
  · intro s q h
    simp only [numL] at h
    by_cases ht : jsTrimL s = []
    · rw [if_pos ht] at h
      exact absurd h (by simp)
    · rw [if_neg ht] at h
      cases hn : jsStrToNumber s with
      | finite q' =>
        rw [hn] at h
        simp only [Option.some.injEq] at h
        rw [h]
      | infinite pos =>
        rw [hn] at h
        simp at h
      | nan =>
        rw [hn] at h
        simp at h
  · rw [numL]
    rw [show jsTrimL "12.5".data = "12.5".data from by decide]
    rw [show jsStrToNumber "12.5".data = .finite (25 / 2) from by
      rw [jsStrToNumber, show numParseOf "12.5".data = .dec true 12 5 1 0 from by decide]
      simp [NumParse.value]
      norm_num]
    rw [if_neg (by decide : ¬ ("12.5".data = []))]

theorem c6_num_optional_witness :
    numL (some "abc".data) = none ∧ jsStrToNumber "12.5".data = .finite (25 / 2) :=
  ⟨c6_num_optional.2.2.2.2.2.1,
   c6_num_optional.2.1 "12.5".data (25 / 2) c6_num_optional.2.2.2.2.2.2⟩

/-- C9: `parseHofRaw` assigns ranks only after the stable descending sort:
the rank stage consumes exactly the sorted pair list, the sorted list is
descending in score, and for every score the pairs carrying that score
appear in the sorted list in exactly their derived order. -/
theorem c9_stable_sort :
    (∀ raw : String, parseHofRaw raw = assignRanks (sortPairs (hofPairs raw))) ∧
    (∀ l : List (Str × Int), List.Pairwise (fun a b => b.2 ≤ a.2) (sortPairs l)) ∧
    (∀ (l : List (Str × Int)) (s : Int),
      (sortPairs l).filter (fun p => p.2 == s) = l.filter (fun p => p.2 == s)) :=
  ⟨fun _ => rfl, sortPairs_pairwise, sortPairs_filter⟩

/-- C8: fewer than two comma tokens give the empty result; a tail token is
dropped exactly when it has no slash, its score fails integer parsing, or
its decoded name trims to empty, and dropping it never disturbs the pairs
derived from the other tokens; a failed head pair likewise leaves only the
tail pairs. -/
theorem c8_malformed_pairs :
    (∀ raw : String, (splitList [','] (jsTrimL raw.data)).length < 2 →
      parseHofRaw raw = []) ∧
    (∀ t : Str, tokenPair t = none ↔
      ('/' ∉ t ∨ jsParseIntL ((splitList ['/'] t).headD []) = none ∨
        jsTrimL (b64decodeSafeL ((splitList ['/'] t).getD 1 [])) = [])) ∧
    (∀ (ts₁ ts₂ : List Str) (t : Str), tokenPair t = none →
      (ts₁ ++ t :: ts₂).filterMap tokenPair = (ts₁ ++ ts₂).filterMap tokenPair) ∧
    (∀ raw : String, 2 ≤ (splitList [','] (jsTrimL raw.data)).length →
      hofFirstPair (splitList [','] (jsTrimL raw.data)) = none →
      hofPairs raw = ((splitList [','] (jsTrimL raw.data)).drop 2).filterMap tokenPair) := by
  refine ⟨?_, ?_, ?_, ?_⟩
  · intro raw h
    unfold parseHofRaw hofPairs
    rw [if_pos h]
    rfl
  · intro t
    unfold tokenPair
    by_cases hs : '/' ∈ t
    · rw [if_pos hs]
      cases hp : jsParseIntL ((splitList ['/'] t).headD []) with
      | none => simp [hs, hp]
      | some s =>
        by_cases hn : jsTrimL (b64decodeSafeL ((splitList ['/'] t).getD 1 [])) = []
        · simp [hs, hp, hn]
        · simp [hs, hp, hn]
    · simp [hs]
  · intro ts₁ ts₂ t h
    rw [List.filterMap_append, List.filterMap_append, List.filterMap_cons, h]
  · intro raw h2 hfp
    unfold hofPairs
    rw [if_neg (by omega), hfp]
    rfl

theorem c8_malformed_pairs_witness :
    parseHofRaw "solo" = [] ∧
    tokenPair "nope".data = none ∧
    (["200/Qg==".data, "nope".data, "150/QQ==".data].filterMap tokenPair =
      ["200/Qg==".data, "150/QQ==".data].filterMap tokenPair) ∧
    hofPairs ",,200/Qg==" =
      ((splitList [','] (jsTrimL (",,200/Qg==").data)).drop 2).filterMap tokenPair := by
  refine ⟨c8_malformed_pairs.1 "solo" (by decide),
    (c8_malformed_pairs.2.1 "nope".data).mpr (Or.inl (by decide)),
    c8_malformed_pairs.2.2.1 ["200/Qg==".data] ["150/QQ==".data] "nope".data (by decide),
    c8_malformed_pairs.2.2.2 ",,200/Qg==" (by decide) (by decide)⟩

/-- C10: for a payload with at least two comma tokens, the first player's
score string is the portion of token 1 before its first slash; a token
with no slash at all is used whole, so a slash-free parseable token 1
still yields the first pair whenever the first name survives decoding. -/
theorem c10_first_score_token :
    (∀ t : Str, '/' ∉ t → splitList ['/'] t = [t]) ∧
    (∀ (raw : String) (n : Int),
      2 ≤ (splitList [','] (jsTrimL raw.data)).length →
      '/' ∉ (splitList [','] (jsTrimL raw.data)).getD 1 [] →
      jsParseIntL ((splitList [','] (jsTrimL raw.data)).getD 1 []) = some n →
      jsTrimL (b64decodeSafeL ((splitList [','] (jsTrimL raw.data)).headD [])) ≠ [] →
      hofPairs raw =
        (b64decodeSafeL ((splitList [','] (jsTrimL raw.data)).headD []), n) ::
          ((splitList [','] (jsTrimL raw.data)).drop 2).filterMap tokenPair) := by
  constructor
  · intro t h
    exact splitList_eq_self_of_head_not_mem '/' [] t h
  · intro raw n h2 hslash hparse hname
    unfold hofPairs
    rw [if_neg (by omega)]
    unfold hofFirstPair
    rw [splitList_eq_self_of_head_not_mem '/' [] _ hslash]
    rw [show (([(splitList [','] (jsTrimL raw.data)).getD 1 []] : List Str).headD []) =
      (splitList [','] (jsTrimL raw.data)).getD 1 [] from rfl]
    rw [hparse]
    simp only [Option.some_bind]
    rw [if_neg hname]
    rfl

theorem c10_first_score_token_witness :
    hofPairs "QQ==,100" = [("A".data, 100)] := by
  have h := c10_first_score_token.2 "QQ==,100" 100 (by decide) (by decide)
    (by decide) (by decide)
  rw [h]
  decide

/-- C2: the ranking stage realises standard competition ranking: every
rank string is the ordinal of a numeric rank; the numeric ranks start at
1, repeat whenever a score equals its predecessor and jump to the 1-based
position (i + 2 at index i + 1) whenever it differs; `ordinal` renders
exactly the spec's English suffix rule; and sorted scores
`[100, 90, 90, 80]` display as `1st, 2nd, 2nd, 4th`. -/
theorem c2_competition_ranking :
    (∀ n : ℕ, ordinal n = toString n ++ ordinalSuffix n) ∧
    (∀ l : List (Str × Int),
      (assignRanks l).map HofRow.rank = (ranksNat (l.map Prod.snd)).map ordinal) ∧
    (∀ (sc : List Int) (i : ℕ), i + 1 < sc.length →
      ((sc.getD (i + 1) 0 = sc.getD i 0 →
        (ranksNat sc).getD (i + 1) 0 = (ranksNat sc).getD i 0) ∧
       (sc.getD (i + 1) 0 ≠ sc.getD i 0 → (ranksNat sc).getD (i + 1) 0 = i + 2))) ∧
    (∀ sc : List Int, sc ≠ [] → (ranksNat sc).getD 0 0 = 1) ∧
    ranksNat [100, 90, 90, 80] = [1, 2, 2, 4] ∧
    (assignRanks [("a".data, 100), ("b".data, 90), ("c".data, 90), ("d".data, 80)]).map
      HofRow.rank = ["1st", "2nd", "2nd", "4th"] := by
  refine ⟨?_, ?_, ?_, ranksNat_head, by decide, by decide⟩
  · intro n
    simp only [ordinal, ordinalSuffix]
    split_ifs <;> first | rfl | omega
  · intro l
    exact rankAux_map_rank l none 0 0
  · intro sc i h
    have hcon := ranksAux_consec sc none 0 0 i h
    refine ⟨hcon.1, fun hne => ?_⟩
    have h2 := hcon.2 hne
    show (ranksAux sc none 0 0).getD (i + 1) 0 = i + 2
    omega

theorem c2_competition_ranking_witness :
    (ranksNat [100, 90, 90, 80]).getD 0 0 = 1 ∧
    (ranksNat [100, 90, 90, 80]).getD 2 0 = (ranksNat [100, 90, 90, 80]).getD 1 0 ∧
    (ranksNat [100, 90, 90, 80]).getD 3 0 = 4 :=
  ⟨c2_competition_ranking.2.2.2.1 [100, 90, 90, 80] (by decide),
   (c2_competition_ranking.2.2.1 [100, 90, 90, 80] 1 (by decide)).1 (by decide),
   (c2_competition_ranking.2.2.1 [100, 90, 90, 80] 2 (by decide)).2 (by decide)⟩

theorem chunkFlag_iff (i : ℕ) (c : Str) :
    chunkFlag i c = true ↔
      c ≠ [] ∧ ∃ kv ∈ chunkKVs i c,
        kv.1 = "hasMoreLevels".data ∧ kv.2 = "1".data := by
  unfold chunkFlag
  by_cases hc : c = []
  · simp [hc]
  · rw [if_neg hc, List.any_eq_true]
    simp only [isFlagKV, Bool.and_eq_true, beq_iff_eq]
    simp [hc]

/-- C7: the document-scoped `hasMoreLevels` flag of `parseLevelList` is
true exactly when some non-empty chunk of the body carries a field with
key `hasMoreLevels` and value exactly `"1"`; any other value, or absence
everywhere, leaves it false, and one such field anywhere makes the whole
result's flag true regardless of the other records. -/
theorem c7_has_more_levels (raw : String) :
    (parseLevelList raw).hasMoreLevels = true ↔
      ∃ ic ∈ (splitList levelRecordMarker raw.data).enum, ic.2 ≠ [] ∧
        ∃ kv ∈ chunkKVs ic.1 ic.2,
          kv.1 = "hasMoreLevels".data ∧ kv.2 = "1".data := by
  rw [parseLevelList_flag, List.any_eq_true]
  simp only [chunkFlag_iff]

/-- C5 fails on the code: the record `levelId=IA==` decodes to the
one-space name `" "`, which is non-empty and therefore retained, yet it
trims to empty — the decoded `levelId` is never trimmed before the
emptiness filter. -/
theorem c5_counterexample :
    (parseLevelList "\\levelId=IA==").levels = [⟨" ", "", none, "", none, none⟩] ∧
    jsTrim " " = "" :=
  ⟨by decide, by decide⟩

/-- C5 (amended): every entry of every `parseLevelList` result has a
non-empty decoded `levelId` — non-empty as a plain string; it may still
consist of whitespace, because the decoded value is not trimmed before
the filter (only the encoded field is trimmed before decoding). -/
theorem c5_entry_nonempty (raw : String) (e : LevelEntry)
    (h : e ∈ (parseLevelList raw).levels) : e.levelId ≠ "" := by
  rw [parseLevelList_levels, List.mem_flatMap] at h
  obtain ⟨ic, _, hmem⟩ := h
  unfold chunkEntries at hmem
  by_cases hc : ic.2 = []
  · rw [if_pos hc] at hmem
    exact absurd hmem (List.not_mem_nil e)
  · rw [if_neg hc] at hmem
    by_cases hid :
        (mkEntry ((chunkKVs ic.1 ic.2).filter (fun kv => !isFlagKV kv))).levelId ≠ ""
    · rw [if_pos hid] at hmem
      rw [List.mem_singleton.mp hmem]
      exact hid
    · rw [if_neg hid] at hmem
      exact absurd hmem (List.not_mem_nil e)

theorem c5_entry_nonempty_witness :
    (⟨" ", "", none, "", none, none⟩ : LevelEntry).levelId ≠ "" :=
  c5_entry_nonempty "\\levelId=IA==" ⟨" ", "", none, "", none, none⟩ (by decide)

/-- C4 fails on the code: the leading fragment `QQ==` (which does not
begin with `levelId=`) is not discarded — it is parsed as a record of its
own and contributes the entry `"A"`, ahead of the marked record `"B"`. -/
theorem c4_counterexample :
    strStarts "levelId=".data "QQ==".data = false ∧
    (parseLevelList "QQ==\\levelId=Qg==").levels.map LevelEntry.levelId = ["A", "B"] :=
  ⟨by decide, by decide⟩

/-- C4 (amended): the leading fragment before the first record marker is
not discarded: it is parsed as a record like any other (its block gets
`levelId=` reattached unless the fragment already starts with it), and it
contributes an entry exactly when that record's decoded `levelId` is
non-empty; only an empty fragment, or one whose parse yields an empty
`levelId`, contributes nothing. -/
theorem c4_leading_fragment (frag rest : String) (h : '\\' ∉ frag.data) :
    (parseLevelList (frag ++ "\\levelId=" ++ rest)).levels =
      chunkEntries 0 frag.data ++ (parseLevelList ("\\levelId=" ++ rest)).levels := by
  rw [parseLevelList_levels, parseLevelList_levels]
  have hmarker : "\\levelId=".data = '\\' :: "levelId=".data := rfl
  have hdata : (frag ++ "\\levelId=" ++ rest).data =
      frag.data ++ ('\\' :: "levelId=".data) ++ rest.data := by
    rw [String.data_append, String.data_append, hmarker]
  have hdata2 : ("\\levelId=" ++ rest).data =
      ([] : Str) ++ ('\\' :: "levelId=".data) ++ rest.data := by
    rw [String.data_append, hmarker]
    rfl
  rw [hdata, hdata2,
    show levelRecordMarker = '\\' :: "levelId=".data from rfl,
    splitList_append_head_not_mem '\\' _ frag.data rest.data h,
    splitList_append_head_not_mem '\\' _ [] rest.data (by simp),
    List.enum_cons, List.enum_cons, List.flatMap_cons, List.flatMap_cons]
  rfl

theorem c4_leading_fragment_witness :
    (parseLevelList ("QQ==" ++ "\\levelId=" ++ "Qg==")).levels =
      chunkEntries 0 "QQ==".data ++ (parseLevelList ("\\levelId=" ++ "Qg==")).levels :=
  c4_leading_fragment "QQ==" "Qg==" (by decide)

/-- A string whose decode succeeds with a name that does not trim to
empty is itself non-empty. -/
theorem decode_nonempty (e : Str) (b : List ℕ) (hd : b64decodeL e = some b)
    (hn : jsTrimL (latin1 b) ≠ []) : e ≠ [] := by
  intro h0
  subst h0
  rw [show b64decodeL ([] : Str) = some [] from by decide] at hd
  have hb : b = [] := by simpa using hd.symm
  exact hn (by rw [hb]; rfl)

/-- C1 fails on the code as universally stated: `"/w=="` is a valid base64
encoding of the non-whitespace one-character name `ÿ` (byte 255), yet in a
`<score>/<name>` token the destructuring of `split('/')` takes only the
segment between the first two slashes, so this encoded name is truncated
to `""` and its pair is dropped: two rows come out, not the three the
claim requires. -/
theorem c1_counterexample :
    b64decodeL "/w==".data = some [255] ∧
    jsTrimL (latin1 [255]) ≠ [] ∧
    parseHofRaw "QQ==,100/ignoredTail,200/Qg==,150//w==" =
      [⟨"1st", "B", 200⟩, ⟨"2nd", "A", 100⟩] :=
  ⟨by decide, by decide, by decide⟩

/-- C1 (amended): for base64-symbol-only encodings whose decoded names do
not trim to empty, and whose score/name tokens' encodings contain no
slash, the four-token stream `NAME0,100/ignoredTail,200/NAME1,150/NAME2`
decodes to exactly the three ranked rows NAME1 @ 200, NAME2 @ 150,
NAME0 @ 100; the trailing `ignoredTail` contributes nothing. -/
theorem c1_hof_header (e0 e1 e2 : Str) (b0 b1 b2 : List ℕ)
    (hA0 : ∀ c ∈ e0, isB64Sym c = true)
    (hA1 : ∀ c ∈ e1, isB64Sym c = true)
    (hA2 : ∀ c ∈ e2, isB64Sym c = true)
    (hs1 : '/' ∉ e1) (hs2 : '/' ∉ e2)
    (hd0 : b64decodeL e0 = some b0)
    (hd1 : b64decodeL e1 = some b1)
    (hd2 : b64decodeL e2 = some b2)
    (hn0 : jsTrimL (latin1 b0) ≠ [])
    (hn1 : jsTrimL (latin1 b1) ≠ [])
    (hn2 : jsTrimL (latin1 b2) ≠ []) :
    parseHofRaw (String.mk
        (e0 ++ ",100/ignoredTail,200/".data ++ e1 ++ ",150/".data ++ e2)) =
      [⟨"1st", String.mk (latin1 b1), 200⟩,
       ⟨"2nd", String.mk (latin1 b2), 150⟩,
       ⟨"3rd", String.mk (latin1 b0), 100⟩] := by
  have he0 := decode_nonempty e0 b0 hd0 hn0
  have he2 := decode_nonempty e2 b2 hd2 hn2
  have hc0 : ',' ∉ e0 := fun hm => absurd (hA0 ',' hm) (by decide)
  have hc1 : ',' ∉ e1 := fun hm => absurd (hA1 ',' hm) (by decide)
  have hc2 : ',' ∉ e2 := fun hm => absurd (hA2 ',' hm) (by decide)
  have hds0 : b64decodeSafeL e0 = latin1 b0 := by
    unfold b64decodeSafeL
    rw [hd0]
  have hds1 : b64decodeSafeL e1 = latin1 b1 := by
    unfold b64decodeSafeL
    rw [hd1]
  have hds2 : b64decodeSafeL e2 = latin1 b2 := by
    unfold b64decodeSafeL
    rw [hd2]
  obtain ⟨c0, e0t, rfl⟩ := List.exists_cons_of_ne_nil he0
  have htrim : jsTrimL ((c0 :: e0t) ++ ",100/ignoredTail,200/".data ++ e1 ++
      ",150/".data ++ e2) =
      (c0 :: e0t) ++ ",100/ignoredTail,200/".data ++ e1 ++ ",150/".data ++ e2 := by
    apply jsTrimL_eq_self
    · intro c hc
      have hc0' : ((c0 :: e0t) ++ ",100/ignoredTail,200/".data ++ e1 ++
          ",150/".data ++ e2).head? = some c0 := rfl
      rw [hc0'] at hc
      have hcc : c = c0 := by
        injection hc with h
        exact h.symm
      rw [hcc]
      exact isB64Sym_not_ws c0 (hA0 c0 (List.mem_cons_self c0 e0t))
    · intro c hc
      rw [List.getLast?_append] at hc
      cases hgl : e2.getLast? with
      | none => exact absurd (List.getLast?_eq_none_iff.mp hgl) he2
      | some c2 =>
        rw [hgl] at hc
        simp only [Option.or] at hc
        have hcc : c = c2 := by
          injection hc with h
          exact h.symm
        rw [hcc]
        exact isB64Sym_not_ws c2 (hA2 c2 (mem_of_getLast?_eq e2 c2 hgl))
  have hshape : (c0 :: e0t) ++ ",100/ignoredTail,200/".data ++ e1 ++
      ",150/".data ++ e2 =
      (c0 :: e0t) ++ (',' :: []) ++ ("100/ignoredTail".data ++ (',' :: []) ++
        (("200/".data ++ e1) ++ (',' :: []) ++ ("150/".data ++ e2))) := by
    rw [show ",100/ignoredTail,200/".data =
        ((',' :: []) ++ ("100/ignoredTail".data ++ ((',' :: []) ++ "200/".data)) : Str)
        from by decide,
      show ",150/".data = ((',' :: []) ++ "150/".data : Str) from by decide]
    simp [List.append_assoc]
  have hsplit : splitList [','] ((c0 :: e0t) ++ ",100/ignoredTail,200/".data ++ e1 ++
      ",150/".data ++ e2) =
      [c0 :: e0t, "100/ignoredTail".data, "200/".data ++ e1, "150/".data ++ e2] := by
    rw [hshape,
      splitList_append_head_not_mem ',' [] (c0 :: e0t) _ hc0,
      splitList_append_head_not_mem ',' [] ("100/ignoredTail".data) _ (by decide),
      splitList_append_head_not_mem ',' [] ("200/".data ++ e1) _ (by
        intro hm
        rcases List.mem_append.mp hm with hm' | hm'
        · exact absurd hm' (by decide)
        · exact hc1 hm'),
      splitList_eq_self_of_head_not_mem ',' [] ("150/".data ++ e2) (by
        intro hm
        rcases List.mem_append.mp hm with hm' | hm'
        · exact absurd hm' (by decide)
        · exact hc2 hm')]
  have htp2 : tokenPair ("200/".data ++ e1) = some (latin1 b1, 200) := by
    have hsp : splitList ['/'] ("200/".data ++ e1) = ["200".data, e1] := by
      rw [show ("200/".data ++ e1 : Str) = "200".data ++ ('/' :: []) ++ e1 from by
          rw [show "200/".data = ("200".data ++ ('/' :: []) : Str) from by decide],
        splitList_append_head_not_mem '/' [] "200".data e1 (by decide),
        splitList_eq_self_of_head_not_mem '/' [] e1 hs1]
    unfold tokenPair
    rw [if_pos (List.mem_append.mpr (Or.inl (by decide : '/' ∈ "200/".data))), hsp,
      show ((["200".data, e1] : List Str).headD []) = "200".data from rfl,
      show jsParseIntL "200".data = some (200 : Int) from by decide]
    simp only [Option.some_bind]
    rw [show ((["200".data, e1] : List Str).getD 1 []) = e1 from rfl, hds1, if_neg hn1]
  have htp3 : tokenPair ("150/".data ++ e2) = some (latin1 b2, 150) := by
    have hsp : splitList ['/'] ("150/".data ++ e2) = ["150".data, e2] := by
      rw [show ("150/".data ++ e2 : Str) = "150".data ++ ('/' :: []) ++ e2 from by
          rw [show "150/".data = ("150".data ++ ('/' :: []) : Str) from by decide],
        splitList_append_head_not_mem '/' [] "150".data e2 (by decide),
        splitList_eq_self_of_head_not_mem '/' [] e2 hs2]
    unfold tokenPair
    rw [if_pos (List.mem_append.mpr (Or.inl (by decide : '/' ∈ "150/".data))), hsp,
      show ((["150".data, e2] : List Str).headD []) = "150".data from rfl,
      show jsParseIntL "150".data = some (150 : Int) from by decide]
    simp only [Option.some_bind]
    rw [show ((["150".data, e2] : List Str).getD 1 []) = e2 from rfl, hds2, if_neg hn2]
  have hfp : hofFirstPair [c0 :: e0t, "100/ignoredTail".data, "200/".data ++ e1,
      "150/".data ++ e2] = some (latin1 b0, 100) := by
    unfold hofFirstPair
    rw [show (([c0 :: e0t, "100/ignoredTail".data, "200/".data ++ e1,
        "150/".data ++ e2] : List Str).getD 1 []) = "100/ignoredTail".data from rfl,
      show splitList ['/'] "100/ignoredTail".data =
        ["100".data, "ignoredTail".data] from by decide,
      show ((["100".data, "ignoredTail".data] : List Str).headD []) = "100".data from rfl,
      show jsParseIntL "100".data = some (100 : Int) from by decide]
    simp only [Option.some_bind]
    rw [show (([c0 :: e0t, "100/ignoredTail".data, "200/".data ++ e1,
        "150/".data ++ e2] : List Str).headD []) = c0 :: e0t from rfl, hds0, if_neg hn0]
  have hpairs : hofPairs (String.mk ((c0 :: e0t) ++ ",100/ignoredTail,200/".data ++
      e1 ++ ",150/".data ++ e2)) =
      [(latin1 b0, 100), (latin1 b1, 200), (latin1 b2, 150)] := by
    unfold hofPairs
    rw [show (String.mk ((c0 :: e0t) ++ ",100/ignoredTail,200/".data ++ e1 ++
        ",150/".data ++ e2)).data =
        (c0 :: e0t) ++ ",100/ignoredTail,200/".data ++ e1 ++ ",150/".data ++ e2
        from rfl,
      htrim, hsplit, if_neg (by simp),
      hfp,
      show (([c0 :: e0t, "100/ignoredTail".data, "200/".data ++ e1,
        "150/".data ++ e2] : List Str).drop 2) =
        ["200/".data ++ e1, "150/".data ++ e2] from rfl,
      List.filterMap_cons, htp2, List.filterMap_cons, htp3, List.filterMap_nil]
    rfl
  rw [show parseHofRaw (String.mk ((c0 :: e0t) ++ ",100/ignoredTail,200/".data ++
      e1 ++ ",150/".data ++ e2)) =
      assignRanks (sortPairs (hofPairs (String.mk ((c0 :: e0t) ++
        ",100/ignoredTail,200/".data ++ e1 ++ ",150/".data ++ e2)))) from rfl,
    hpairs,
    show sortPairs [(latin1 b0, 100), (latin1 b1, 200), (latin1 b2, 150)] =
      [(latin1 b1, 200), (latin1 b2, 150), (latin1 b0, 100)] from by
        norm_num [sortPairs, insertDesc],
    show assignRanks [(latin1 b1, 200), (latin1 b2, 150), (latin1 b0, 100)] =
      [⟨ordinal 1, String.mk (latin1 b1), 200⟩, ⟨ordinal 2, String.mk (latin1 b2), 150⟩,
       ⟨ordinal 3, String.mk (latin1 b0), 100⟩] from by
        simp [assignRanks, rankAux],
    show ordinal 1 = "1st" from by decide,
    show ordinal 2 = "2nd" from by decide,
    show ordinal 3 = "3rd" from by decide]

theorem c1_hof_header_witness :
    parseHofRaw (String.mk ("QQ==".data ++ ",100/ignoredTail,200/".data ++
        "Qg==".data ++ ",150/".data ++ "Qw==".data)) =
      [⟨"1st", String.mk (latin1 [66]), 200⟩,
       ⟨"2nd", String.mk (latin1 [67]), 150⟩,
       ⟨"3rd", String.mk (latin1 [65]), 100⟩] :=
  c1_hof_header "QQ==".data "Qg==".data "Qw==".data [65] [66] [67]
    (by decide) (by decide) (by decide) (by decide) (by decide)
    (by decide) (by decide) (by decide) (by decide) (by decide) (by decide)

